import Mathlib

/-!
Verification of the CEM-based MAPF goal-assignment program
(`run_experiments_no_original.py`) against its specification.

The embedding below translates the functions of the program into Lean:

* grids are `List (List Bool)` obstacle masks (`true` = obstacle), coordinates
  are pairs of integers (Python `int`s are unbounded);
* `is_reachable` is the breadth-first search of the source, made total with a
  fuel argument (`rows * cols + 2` dequeues always suffice; proved below);
* the external pathfinding solver (`cbs.CBSSolver` / `find_solution`) and
  `get_sum_of_cost` (`single_agent_planner`) are not part of `src/`; per the
  spec they are consumed as an opaque oracle returning
  `Solved(paths) | NoSolution | Failed(message)`, so the solver is a function
  parameter of type `Solver` and `get_sum_of_cost` is modelled from the spec;
* `np.random.multivariate_normal` is a stochastic external call; the stream of
  sampled vectors is threaded as an explicit oracle `sampler : ℕ → List (List ℚ)`
  (generation index ↦ the `lamda` rows of that generation), as the design
  notes of the spec direct (thread an explicit, seedable random source);
* costs live in `WithTop ℚ` (`⊤` plays the Python infinity, which sorts
  above every finite cost, matching NumPy/Python comparison of floats);
* `np.argsort` is modelled as the deterministic argsort that breaks ties by
  ascending original index.  The NumPy default `kind=quicksort` leaves tie
  order unspecified (it is documented as not stable), so theorems below lean
  on this model only where tie order cannot matter: under pairwise-distinct
  keys the sorted order is unique, and in every equation whose two sides
  apply the same decoding or selection function;
* `np.cov` appears twice: `npCov`, the matrix of entrywise covariance values
  (what the entries are when a matrix is produced at all), and `npCovPy`,
  the shape-faithful result with the NumPy transpose rule and the trailing
  `squeeze` that collapses a 1×1 result to a 0-d scalar.  The loop variant
  `cemLoopP` adds the validation that `np.random.multivariate_normal`
  performs at the top of every generation — a non-2-d covariance raises —
  so `cem_plan_run` returns `none` exactly when the real run aborts;
* division by zero in `ℚ` yields `0` where NumPy would produce `nan` with a
  warning (`np.mean`/`np.cov` of an empty or singleton elite set); no claim
  depends on those degenerate values.
-/

namespace CemMapf

/-- A grid coordinate, `(row, column)`; Python tuples of unbounded ints. -/
abbrev Coord := ℤ × ℤ

/-- The sentinel `UNREACHABLE_COST = 9999` (source line 14). -/
def UNREACHABLE_COST : ℚ := 9999

/-- Reading the obstacle mask: `my_map[x][y]`, `true` means obstacle.
Out-of-range reads default to `false`; in the program every read is guarded by
the bounds check, so the default is never observable. -/
def cellAt (my_map : List (List Bool)) (p : Coord) : Bool :=
  (my_map.getD p.1.toNat []).getD p.2.toNat false

/-- The bounds test `0 <= nx < rows and 0 <= ny < cols`. -/
def inBounds (rows cols : ℕ) (p : Coord) : Bool :=
  decide (0 ≤ p.1 ∧ p.1 < (rows : ℤ) ∧ 0 ≤ p.2 ∧ p.2 < (cols : ℤ))

/-- The list `directions = [(0, 1), (1, 0), (-1, 0), (0, -1)]` (source line 43). -/
def directions : List Coord := [(0, 1), (1, 0), (-1, 0), (0, -1)]

/-- The neighbour `nx, ny = curr[0] + dx, curr[1] + dy`. -/
def nbr (c d : Coord) : Coord := (c.1 + d.1, c.2 + d.2)

/-- One neighbour check of the BFS inner loop (source lines 46-52), threaded
through `Option`: `none` signals `return True` (the neighbour passed the
bounds, free-cell and not-visited guards and equals the goal); `some (v, q)`
carries the updated visited set and the list of newly enqueued cells. -/
def checkNbr (rows cols : ℕ) (cell : Coord → Bool) (goal c : Coord)
    (st : Finset Coord × List Coord) (d : Coord) :
    Option (Finset Coord × List Coord) :=
  let n := nbr c d
  if inBounds rows cols n = true ∧ cell n = false ∧ n ∉ st.1 then
    if n = goal then none
    else some (insert n st.1, st.2 ++ [n])
  else some st

/-- The BFS loop `while queue:` of `is_reachable` (source lines 44-53).
`fuel` bounds the number of dequeues; `rows * cols + 2` always suffices
(every enqueued cell is freshly added to `visited`, and `visited` can only
contain the start plus in-bounds cells), which is proved below. -/
def bfsAux (rows cols : ℕ) (cell : Coord → Bool) (goal : Coord) :
    ℕ → List Coord → Finset Coord → Bool
  | 0, _, _ => false
  | _ + 1, [], _ => false
  | f + 1, c :: q, v =>
    match List.foldlM (checkNbr rows cols cell goal c) (v, ([] : List Coord))
        directions with
    | none => true
    | some (v2, new) => bfsAux rows cols cell goal f (q ++ new) v2

/-- The function `is_reachable(my_map, start, goal)` (source lines 36-53). -/
def is_reachable (my_map : List (List Bool)) (start goal : Coord) : Bool :=
  if start = goal then true
  else
    let rows := my_map.length
    let cols := (my_map.headD []).length
    bfsAux rows cols (cellAt my_map) goal (rows * cols + 2) [start] {start}

/-- Modelled from the spec: the outcome of the external pathfinding oracle.
`cbs.CBSSolver.find_solution` is not under `src/`; the spec models it as
`findSolution(...) -> Solved(paths) | NoSolution | Failed(message)`. -/
inductive SolverRes where
  | solved (paths : List (List Coord))
  | noSolution
  | failed (msg : String)
deriving DecidableEq

/-- The external solver as an oracle: grid, starts, goal permutation,
disjoint flag ↦ outcome. -/
abbrev Solver := List (List Bool) → List Coord → List Coord → Bool → SolverRes

/-- Modelled from the spec: `get_sum_of_cost` (from `single_agent_planner`,
not under `src/`); the spec states "Cost of a solution = sum of per-agent
path lengths". -/
def get_sum_of_cost (paths : List (List Coord)) : ℕ :=
  (paths.map List.length).sum

/-- A concrete failure message used by witnesses. -/
def boomMsg : String := "boom"

/-- The evaluator `process_goal_permutation` (source lines 56-66), instrumented with the
number of external-solver invocations (second component).  The sequential
early-return reachability loop is the `all` over `zip starts goal_permutation`
(Python `zip` truncates to the shorter list, as `List.zip` does); a `Failed`
outcome is the `except` branch, which logs and returns the Python infinity;
the result of `find_solution` is truthiness-tested (`if paths`), so an empty
path list is also mapped to infinity. -/
def process_goal_permutation_instr (solver : Solver) (goal_permutation : List Coord)
    (my_map : List (List Bool)) (starts : List Coord) (disjoint : Bool) :
    WithTop ℚ × ℕ :=
  if (starts.zip goal_permutation).all
      (fun p => is_reachable my_map p.1 p.2) then
    match solver my_map starts goal_permutation disjoint with
    | .solved paths =>
        (if paths.isEmpty then (⊤ : WithTop ℚ)
         else ((get_sum_of_cost paths : ℚ) : WithTop ℚ), 1)
    | .noSolution => ((⊤ : WithTop ℚ), 1)
    | .failed _ => ((⊤ : WithTop ℚ), 1)
  else (((UNREACHABLE_COST : ℚ) : WithTop ℚ), 0)

/-- The cost returned by `process_goal_permutation` (the instrumentation dropped). -/
def process_goal_permutation (solver : Solver) (goal_permutation : List Coord)
    (my_map : List (List Bool)) (starts : List Coord) (disjoint : Bool) :
    WithTop ℚ :=
  (process_goal_permutation_instr solver goal_permutation my_map starts disjoint).1

/-- The index order `np.argsort` produces, as a relation on indices:
ascending key, ties by ascending index. -/
def argRel {α : Type} [LinearOrder α] (key : ℕ → α) (i j : ℕ) : Prop :=
  key i < key j ∨ (key i = key j ∧ i ≤ j)

instance {α : Type} [LinearOrder α] (key : ℕ → α) : DecidableRel (argRel key) :=
  fun _ _ => inferInstanceAs (Decidable (_ ∨ _))

instance {α : Type} [LinearOrder α] (key : ℕ → α) : IsTotal ℕ (argRel key) where
  total i j := by
    rcases lt_trichotomy (key i) (key j) with h | h | h
    · exact Or.inl (Or.inl h)
    · rcases le_total i j with hij | hij
      · exact Or.inl (Or.inr ⟨h, hij⟩)
      · exact Or.inr (Or.inr ⟨h.symm, hij⟩)
    · exact Or.inr (Or.inl h)

instance {α : Type} [LinearOrder α] (key : ℕ → α) : IsTrans ℕ (argRel key) where
  trans i j k hij hjk := by
    rcases hij with h1 | ⟨e1, l1⟩
    · rcases hjk with h2 | ⟨e2, _⟩
      · exact Or.inl (h1.trans h2)
      · exact Or.inl (e2 ▸ h1)
    · rcases hjk with h2 | ⟨e2, l2⟩
      · exact Or.inl (e1 ▸ h2)
      · exact Or.inr ⟨e1.trans e2, l1.trans l2⟩

/-- The function `np.argsort` over the keys `key 0, …, key (n-1)`: the permutation of
`range n` ordered by ascending key, ties by ascending index. -/
def argsortKey {α : Type} [LinearOrder α] (key : ℕ → α) (n : ℕ) : List ℕ :=
  List.insertionSort (argRel key) (List.range n)

/-- The call `np.argsort(l)` for a list, with an explicit default for (never reached)
out-of-range index reads. -/
def argsort {α : Type} [LinearOrder α] (d : α) (l : List α) : List ℕ :=
  argsortKey (fun i => l.getD i d) l.length

/-- The decoding of one sample vector (one element of the comprehension of
`compute_goal_matrix_list`, source line 70):
`[goals[idx] for idx in np.argsort(np.abs(l))]`. -/
def decodeOne (goals : List Coord) (l : List ℚ) : List Coord :=
  (argsort 0 (l.map (fun x => |x|))).map (fun idx => goals.getD idx (0, 0))

/-- The function `compute_goal_matrix_list(goals, lamda)` (source lines 69-70). -/
def compute_goal_matrix_list (goals : List Coord) (lamda : List (List ℚ)) :
    List (List Coord) :=
  lamda.map (fun l => decodeOne goals l)

/-- The call `np.mean(rows, axis=0)`: the componentwise mean of a list of row
vectors (output width taken from the first row, as for a NumPy 2-d array of
homogeneous rows).  Empty input divides by zero, which is `0` in `ℚ`
(NumPy: `nan` with a warning); no claim touches that case. -/
def npMean0 (xs : List (List ℚ)) : List ℚ :=
  let k := xs.length
  let d := (xs.headD []).length
  (List.range d).map (fun j => (xs.map (fun r => r.getD j 0)).sum / (k : ℚ))

/-- The call `np.cov(xs, rowvar=False)` with the default unbiased normalisation
(divide by `k - 1`): columns are variables, rows are observations.
A single observation divides by zero, which is `0` in `ℚ`
(NumPy: `nan` with a warning); no claim touches that value. -/
def npCov (xs : List (List ℚ)) : List (List ℚ) :=
  let k := xs.length
  let d := (xs.headD []).length
  let m := npMean0 xs
  (List.range d).map (fun a =>
    (List.range d).map (fun b =>
      (xs.map (fun r => (r.getD a 0 - m.getD a 0) * (r.getD b 0 - m.getD b 0))).sum
        / ((k : ℚ) - 1)))

/-- Entry `(a, b)` of a matrix stored as a list of rows. -/
def matEntry (m : List (List ℚ)) (a b : ℕ) : ℚ :=
  (m.getD a []).getD b 0

/-- The matrix `0.01 * np.identity(dim)` (source line 76). -/
def initCov (dim : ℕ) : List (List ℚ) :=
  (List.range dim).map (fun i =>
    (List.range dim).map (fun j => if i = j then (1 : ℚ) / 100 else 0))

/-- The Python `min(costs)` on a list, as a fold; `min` of the empty list
raises in Python, here it is `⊤` (no claim touches the empty case). -/
def pymin (l : List (WithTop ℚ)) : WithTop ℚ :=
  l.foldr min ⊤

/-- The elite indices `np.argsort(costs)[:num_elite]` (source line 85). -/
def eliteIdxs (costs : List (WithTop ℚ)) (num_elite : ℕ) : List ℕ :=
  (argsort ⊤ costs).take num_elite

/-- The cost list of one generation: decode every sampled vector and evaluate it
(source lines 81-84; the `multiprocessing.Pool.starmap` preserves input
order, so it is the order-preserving `map`). -/
def genCosts (solver : Solver) (my_map : List (List Bool)) (starts : List Coord)
    (disjoint : Bool) (goals : List Coord) (lamda : List (List ℚ)) :
    List (WithTop ℚ) :=
  (compute_goal_matrix_list goals lamda).map
    (fun perm => process_goal_permutation solver perm my_map starts disjoint)

/-- The mutable state of the CEM loop: `mean`, `cov`, `cost_track`. -/
structure CemState where
  mean : List ℚ
  cov : List (List ℚ)
  cost_track : List (WithTop ℚ)
deriving DecidableEq

/-- The rows `lamda[elite_idxs]`: NumPy fancy-indexing of the sampled rows. -/
def eliteRows (lamda : List (List ℚ)) (idxs : List ℕ) : List (List ℚ) :=
  idxs.map (fun i => lamda.getD i [])

/-- One iteration of the CEM loop (source lines 79-88) given that
sampled `lamda` rows of that generation. -/
def cemGen (solver : Solver) (my_map : List (List Bool)) (starts : List Coord)
    (goals : List Coord) (disjoint : Bool) (num_elite : ℕ)
    (lamda : List (List ℚ)) (s : CemState) : CemState :=
  let costs := genCosts solver my_map starts disjoint goals lamda
  let idxs := eliteIdxs costs num_elite
  let elite := eliteRows lamda idxs
  { mean := npMean0 elite
    cov := npCov elite
    cost_track := s.cost_track ++ [pymin costs] }

/-- The `for _ in range(maxiter)` loop, generation `g` first. -/
def cemLoop (solver : Solver) (my_map : List (List Bool)) (starts : List Coord)
    (goals : List Coord) (disjoint : Bool) (num_elite : ℕ)
    (sampler : ℕ → List (List ℚ)) : ℕ → ℕ → CemState → CemState
  | 0, _, s => s
  | m + 1, g, s =>
      cemLoop solver my_map starts goals disjoint num_elite sampler m (g + 1)
        (cemGen solver my_map starts goals disjoint num_elite (sampler g) s)

/-- The initial `CemState` (source lines 75-77). -/
def initState (dim : ℕ) : CemState :=
  { mean := List.replicate dim 0, cov := initCov dim, cost_track := [] }

/-- The final-phase evaluation of `cem_plan` (source lines 94-111), returning
`(best_cost, result_note, solver invocations)`.  The `find_solution` result is
truthiness-tested (`if paths:`), so an empty path list lands in the
`INF-NOPATH` branch. -/
def finalEval (solver : Solver) (my_map : List (List Bool)) (starts : List Coord)
    (disjoint : Bool) (permuted : List Coord) : ℚ × String × ℕ :=
  if (starts.zip permuted).all (fun p => is_reachable my_map p.1 p.2) then
    match solver my_map starts permuted disjoint with
    | .solved paths =>
        if paths.isEmpty then ((UNREACHABLE_COST : ℚ), "INF-NOPATH", 1)
        else ((get_sum_of_cost paths : ℚ), "", 1)
    | .noSolution => ((UNREACHABLE_COST : ℚ), "INF-NOPATH", 1)
    | .failed _ => ((UNREACHABLE_COST : ℚ), "ERROR", 1)
  else ((UNREACHABLE_COST : ℚ), "INF-UNREACHABLE", 0)

/-- The value `cem_plan` returns, plus the result note and the number of
final-phase solver invocations (the CSV/plot persistence of lines 113-132 is
a reporting boundary and carries no computed state). -/
structure CemResult where
  permuted : List Coord
  best_cost : ℚ
  note : String
  cost_track : List (WithTop ℚ)
  finalSolverCalls : ℕ
deriving DecidableEq

/-- The optimizer `cem_plan` (source lines 73-134), with the sampling oracle explicit. -/
def cem_plan (solver : Solver) (my_map : List (List Bool)) (starts : List Coord)
    (goals : List Coord) (disjoint : Bool) (sampler : ℕ → List (List ℚ))
    (num_elite : ℕ) (maxiter : ℕ) : CemResult :=
  let dim := goals.length
  let sf := cemLoop solver my_map starts goals disjoint num_elite sampler
    maxiter 0 (initState dim)
  let idx_sort := argsort 0 (sf.mean.map (fun x => |x|))
  let permuted := idx_sort.map (fun idx => goals.getD idx (0, 0))
  let fe := finalEval solver my_map starts disjoint permuted
  { permuted := permuted
    best_cost := fe.1
    note := fe.2.1
    cost_track := sf.cost_track
    finalSolverCalls := fe.2.2 }

/-! ### Lemmas about `argsort` -/

theorem argsortKey_perm {α : Type} [LinearOrder α] (key : ℕ → α) (n : ℕ) :
    (argsortKey key n).Perm (List.range n) :=
  List.perm_insertionSort _ _

theorem argsortKey_length {α : Type} [LinearOrder α] (key : ℕ → α) (n : ℕ) :
    (argsortKey key n).length = n := by
  simpa using (argsortKey_perm key n).length_eq

theorem argsortKey_mem {α : Type} [LinearOrder α] (key : ℕ → α) (n i : ℕ) :
    i ∈ argsortKey key n ↔ i < n := by
  rw [(argsortKey_perm key n).mem_iff, List.mem_range]

theorem argsortKey_nodup {α : Type} [LinearOrder α] (key : ℕ → α) (n : ℕ) :
    (argsortKey key n).Nodup :=
  (argsortKey_perm key n).nodup_iff.mpr (List.nodup_range n)

theorem argsortKey_sorted {α : Type} [LinearOrder α] (key : ℕ → α) (n : ℕ) :
    List.Sorted (argRel key) (argsortKey key n) :=
  List.sorted_insertionSort _ _

/-- The order `argsortKey` produces is strictly lexicographic in
(key, original index): ascending keys, ties by ascending index. -/
theorem argsortKey_pairwise {α : Type} [LinearOrder α] (key : ℕ → α) (n : ℕ) :
    List.Pairwise (fun i j => key i < key j ∨ (key i = key j ∧ i < j))
      (argsortKey key n) := by
  have hs := argsortKey_sorted key n
  have hn : List.Pairwise (fun i j : ℕ => i ≠ j) (argsortKey key n) :=
    argsortKey_nodup key n
  refine (hn.and hs).imp ?_
  rintro i j ⟨hne, hlt | ⟨heq, hle⟩⟩
  · exact Or.inl hlt
  · exact Or.inr ⟨heq, lt_of_le_of_ne hle hne⟩

theorem map_getD_range {β : Type} (l : List β) (d : β) :
    (List.range l.length).map (fun i => l.getD i d) = l := by
  apply List.ext_getElem
  · simp
  · intro i h1 h2
    simp [List.getD_eq_getElem?_getD, List.getElem?_eq_getElem h2]

theorem getD_map_range {β : Type} (f : ℕ → β) (d j : ℕ) (dflt : β) :
    ((List.range d).map f).getD j dflt = if j < d then f j else dflt := by
  by_cases h : j < d
  · rw [if_pos h, List.getD_eq_getElem?_getD]
    simp [List.getElem?_eq_getElem, h]
  · rw [if_neg h, List.getD_eq_default]
    simpa using Nat.le_of_not_lt h

theorem getD_map_abs (l : List ℚ) (i : ℕ) (h : i < l.length) :
    (l.map (fun x => |x|)).getD i 0 = |l.getD i 0| := by
  rw [List.getD_eq_getElem?_getD, List.getD_eq_getElem?_getD]
  simp [List.getElem?_eq_getElem, h]

/-- C6: for a vector whose components have pairwise-distinct absolute values
and a goal set of matching length, `decode` returns the goal set reordered by
ascending absolute value of the corresponding component (a full argsort by
absolute value); the result is a permutation of (bijection onto) the goal
set, and the decoding is pure (equal inputs give equal outputs). -/
theorem decode_is_argsort_bijection (v : List ℚ) (goals : List Coord)
    (hlen : goals.length = v.length)
    (hdist : ∀ i ∈ List.range v.length, ∀ j ∈ List.range v.length, i ≠ j →
      |v.getD i 0| ≠ |v.getD j 0|) :
    decodeOne goals v
        = (argsort 0 (v.map (fun x => |x|))).map (fun idx => goals.getD idx (0, 0))
    ∧ (decodeOne goals v).Perm goals
    ∧ List.Pairwise (fun a b => a < b)
        ((argsort 0 (v.map (fun x => |x|))).map
          (fun i => (v.map (fun x => |x|)).getD i 0))
    ∧ decodeOne goals v = decodeOne goals v := by
  have hn : (v.map (fun x => |x|)).length = v.length := List.length_map _ _
  refine ⟨rfl, ?_, ?_, rfl⟩
  · have hperm : (argsort 0 (v.map (fun x => |x|))).Perm (List.range v.length) := by
      rw [argsort, hn]; exact argsortKey_perm _ _
    have : (decodeOne goals v).Perm
        ((List.range v.length).map (fun idx => goals.getD idx (0, 0))) :=
      hperm.map _
    rwa [← hlen, map_getD_range goals (0, 0)] at this
  · rw [argsort, hn]
    rw [List.pairwise_map]
    have hp := argsortKey_pairwise
      (fun i => (v.map (fun x => |x|)).getD i 0) v.length
    refine hp.imp_of_mem ?_
    intro i j hi hj hij
    rw [argsortKey_mem] at hi hj
    rcases hij with hlt | ⟨heq, hij⟩
    · exact hlt
    · exfalso
      refine hdist i (List.mem_range.mpr hi) j (List.mem_range.mpr hj)
        (Nat.ne_of_lt hij) ?_
      rw [← getD_map_abs v i hi, ← getD_map_abs v j hj]
      exact heq

/-- Witness for `decode_is_argsort_bijection` at `v = [3, -1, 2]`,
`goals = [(0,0), (1,1), (2,2)]`. -/
theorem decode_is_argsort_bijection_witness :
    (decodeOne [((0 : ℤ), (0 : ℤ)), (1, 1), (2, 2)] [3, -1, 2]).Perm
      [((0 : ℤ), (0 : ℤ)), (1, 1), (2, 2)]
    ∧ decodeOne [((0 : ℤ), (0 : ℤ)), (1, 1), (2, 2)] [3, -1, 2]
        = [(1, 1), (2, 2), (0, 0)] :=
  ⟨(decode_is_argsort_bijection [3, -1, 2] [(0, 0), (1, 1), (2, 2)]
      (by decide) (by decide)).2.1, by decide⟩

/-! ### The cost evaluator (claims C1, C5) -/

/-- C1: if some `(start, goal)` pair of the permutation is unreachable, the
evaluator returns exactly the sentinel `UNREACHABLE_COST = 9999` and the
external solver is invoked zero times; otherwise (whatever the solver then
does, including raising) the solver is invoked exactly once. -/
theorem evaluator_prefilter_solver_calls (solver : Solver)
    (goal_permutation : List Coord) (my_map : List (List Bool))
    (starts : List Coord) (disjoint : Bool) :
    ((∃ p ∈ starts.zip goal_permutation, is_reachable my_map p.1 p.2 = false) →
      process_goal_permutation_instr solver goal_permutation my_map starts disjoint
        = (((UNREACHABLE_COST : ℚ) : WithTop ℚ), 0))
    ∧ ((∀ p ∈ starts.zip goal_permutation, is_reachable my_map p.1 p.2 = true) →
      (process_goal_permutation_instr solver goal_permutation my_map starts
        disjoint).2 = 1) := by
  constructor
  · rintro ⟨p, hp, hfalse⟩
    rw [process_goal_permutation_instr, if_neg]
    intro hall
    rw [List.all_eq_true] at hall
    have := hall p hp
    rw [hfalse] at this
    exact Bool.false_ne_true this
  · intro hall
    rw [process_goal_permutation_instr, if_pos]
    · cases solver my_map starts goal_permutation disjoint <;> rfl
    · rw [List.all_eq_true]
      exact hall

/-- Witness for `evaluator_prefilter_solver_calls`: on the 1×2 grid with an
obstacle at `(0, 1)`, assigning that cell yields the sentinel with zero
solver calls, while the reachable assignment invokes the solver once. -/
theorem evaluator_prefilter_witness :
    process_goal_permutation_instr (fun _ _ _ _ => SolverRes.noSolution)
        [((0 : ℤ), (1 : ℤ))] [[false, true]] [(0, 0)] false
      = (((UNREACHABLE_COST : ℚ) : WithTop ℚ), 0)
    ∧ (process_goal_permutation_instr (fun _ _ _ _ => SolverRes.noSolution)
        [((0 : ℤ), (0 : ℤ))] [[false, true]] [(0, 0)] false).2 = 1 :=
  ⟨(evaluator_prefilter_solver_calls _ _ _ _ _).1 (by decide),
   (evaluator_prefilter_solver_calls _ _ _ _ _).2 (by decide)⟩

/-- Counterexample to C5 as stated: the solver can return a path set (the
empty one) on which the evaluator returns `+∞`, not the sum of per-agent
path lengths (which is `0`).  This is the Python truthiness test
`if paths` conflating the empty list with `None`. -/
theorem evaluate_empty_paths_cex :
    process_goal_permutation (fun _ _ _ _ => SolverRes.solved []) [] [[false]] [] false
      = (⊤ : WithTop ℚ)
    ∧ ((get_sum_of_cost [] : ℚ) : WithTop ℚ) = 0
    ∧ (⊤ : WithTop ℚ) ≠ 0 := by
  refine ⟨rfl, ?_, ?_⟩
  · norm_num [get_sum_of_cost]
  · decide

/-- C5 (amended): when every pair is reachable, the evaluator maps a
non-empty solved path set to the sum of per-agent path lengths, an empty
solved path set or a no-solution report to `+∞`, and a raised solver failure
to `+∞` (after logging); being a total function into `WithTop ℚ`, it always
hands the optimizer a well-formed cost and never raises. -/
theorem evaluate_total_cost_mapping (solver : Solver)
    (goal_permutation : List Coord) (my_map : List (List Bool))
    (starts : List Coord) (disjoint : Bool)
    (hreach : ∀ p ∈ starts.zip goal_permutation, is_reachable my_map p.1 p.2 = true) :
    (∀ paths, solver my_map starts goal_permutation disjoint = SolverRes.solved paths →
      paths ≠ [] →
      process_goal_permutation solver goal_permutation my_map starts disjoint
        = ((get_sum_of_cost paths : ℚ) : WithTop ℚ))
    ∧ (solver my_map starts goal_permutation disjoint = SolverRes.solved [] →
      process_goal_permutation solver goal_permutation my_map starts disjoint = ⊤)
    ∧ (solver my_map starts goal_permutation disjoint = SolverRes.noSolution →
      process_goal_permutation solver goal_permutation my_map starts disjoint = ⊤)
    ∧ (∀ msg, solver my_map starts goal_permutation disjoint = SolverRes.failed msg →
      process_goal_permutation solver goal_permutation my_map starts disjoint = ⊤) := by
  have hif : (starts.zip goal_permutation).all
      (fun p => is_reachable my_map p.1 p.2) = true := by
    rw [List.all_eq_true]; exact hreach
  refine ⟨?_, ?_, ?_, ?_⟩
  · intro paths hs hne
    rw [process_goal_permutation, process_goal_permutation_instr, if_pos hif, hs]
    simp [List.isEmpty_iff, hne]
  · intro hs
    rw [process_goal_permutation, process_goal_permutation_instr, if_pos hif, hs]
    rfl
  · intro hs
    rw [process_goal_permutation, process_goal_permutation_instr, if_pos hif, hs]
  · intro msg hs
    rw [process_goal_permutation, process_goal_permutation_instr, if_pos hif, hs]

/-- Witness for `evaluate_total_cost_mapping`: a solved two-cell path on a
free 1×2 grid gives cost 2; a raised failure gives `+∞`. -/
theorem evaluate_total_cost_mapping_witness :
    process_goal_permutation (fun _ _ _ _ => SolverRes.solved [[(0, 0), (0, 1)]])
        [((0 : ℤ), (1 : ℤ))] [[false, false]] [(0, 0)] false
      = ((2 : ℚ) : WithTop ℚ)
    ∧ process_goal_permutation (fun _ _ _ _ => SolverRes.failed boomMsg)
        [((0 : ℤ), (1 : ℤ))] [[false, false]] [(0, 0)] false
      = (⊤ : WithTop ℚ) := by
  constructor
  · have h := (evaluate_total_cost_mapping
        (fun _ _ _ _ => SolverRes.solved [[(0, 0), (0, 1)]])
        [((0 : ℤ), (1 : ℤ))] [[false, false]] [(0, 0)] false
        (by decide)).1 [[(0, 0), (0, 1)]] rfl (by decide)
    rw [h]
    norm_num [get_sum_of_cost]
  · exact (evaluate_total_cost_mapping (fun _ _ _ _ => SolverRes.failed boomMsg)
      [((0 : ℤ), (1 : ℤ))] [[false, false]] [(0, 0)] false
      (by decide)).2.2.2 boomMsg rfl

/-! ### The final-answer policy of `cem_plan` (claim C2) -/

/-- Counterexample to C2 as stated: with zero agents the final solver call
returns the (empty) path set, i.e. it succeeds, yet `cem_plan` reports the
sentinel `9999` with note `"INF-NOPATH"` instead of the sum-of-costs `0`
with an empty note — again the Python truthiness test `if paths`. -/
theorem final_report_empty_paths_cex :
    (cem_plan (fun _ _ _ _ => SolverRes.solved []) [[false]] [] [] false
        (fun _ => []) 10 0).note = "INF-NOPATH"
    ∧ (cem_plan (fun _ _ _ _ => SolverRes.solved []) [[false]] [] [] false
        (fun _ => []) 10 0).best_cost = UNREACHABLE_COST
    ∧ (UNREACHABLE_COST : ℚ) ≠ (get_sum_of_cost [] : ℚ) := by
  refine ⟨rfl, rfl, ?_⟩
  norm_num [UNREACHABLE_COST, get_sum_of_cost]

/-- C2 (amended): after the last generation, `cem_plan` decodes the final
distribution mean (not any sampled vector) into the reported permutation and
evaluates it once through the final policy; that policy reports
`(9999, "INF-UNREACHABLE")` with no solver call when some pair of the
decoded permutation is unreachable, and otherwise calls the solver exactly
once, reporting `(9999, "INF-NOPATH")` on a no-solution report or an empty
solved path set, `(9999, "ERROR")` on a raised solver failure, and the true
sum-of-costs with an empty note on success with a non-empty path set. -/
theorem final_phase_policy (solver : Solver) (my_map : List (List Bool))
    (starts goals : List Coord) (disjoint : Bool) (sampler : ℕ → List (List ℚ))
    (num_elite maxiter : ℕ) :
    cem_plan solver my_map starts goals disjoint sampler num_elite maxiter
      = { permuted := decodeOne goals (cemLoop solver my_map starts goals disjoint
            num_elite sampler maxiter 0 (initState goals.length)).mean
          best_cost := (finalEval solver my_map starts disjoint
            (decodeOne goals (cemLoop solver my_map starts goals disjoint
              num_elite sampler maxiter 0 (initState goals.length)).mean)).1
          note := (finalEval solver my_map starts disjoint
            (decodeOne goals (cemLoop solver my_map starts goals disjoint
              num_elite sampler maxiter 0 (initState goals.length)).mean)).2.1
          cost_track := (cemLoop solver my_map starts goals disjoint
            num_elite sampler maxiter 0 (initState goals.length)).cost_track
          finalSolverCalls := (finalEval solver my_map starts disjoint
            (decodeOne goals (cemLoop solver my_map starts goals disjoint
              num_elite sampler maxiter 0 (initState goals.length)).mean)).2.2 }
    ∧ (∀ permuted : List Coord,
        (∃ p ∈ starts.zip permuted, is_reachable my_map p.1 p.2 = false) →
        finalEval solver my_map starts disjoint permuted
          = (UNREACHABLE_COST, "INF-UNREACHABLE", 0))
    ∧ (∀ permuted : List Coord,
        (∀ p ∈ starts.zip permuted, is_reachable my_map p.1 p.2 = true) →
        (solver my_map starts permuted disjoint = SolverRes.noSolution →
          finalEval solver my_map starts disjoint permuted
            = (UNREACHABLE_COST, "INF-NOPATH", 1))
        ∧ (∀ msg, solver my_map starts permuted disjoint = SolverRes.failed msg →
          finalEval solver my_map starts disjoint permuted
            = (UNREACHABLE_COST, "ERROR", 1))
        ∧ (∀ paths, solver my_map starts permuted disjoint = SolverRes.solved paths →
          paths ≠ [] →
          finalEval solver my_map starts disjoint permuted
            = ((get_sum_of_cost paths : ℚ), "", 1))
        ∧ (solver my_map starts permuted disjoint = SolverRes.solved [] →
          finalEval solver my_map starts disjoint permuted
            = (UNREACHABLE_COST, "INF-NOPATH", 1))) := by
  refine ⟨rfl, ?_, ?_⟩
  · rintro permuted ⟨p, hp, hfalse⟩
    rw [finalEval, if_neg]
    intro hall
    rw [List.all_eq_true] at hall
    have := hall p hp
    rw [hfalse] at this
    exact Bool.false_ne_true this
  · intro permuted hall
    have hif : (starts.zip permuted).all
        (fun p => is_reachable my_map p.1 p.2) = true := by
      rw [List.all_eq_true]; exact hall
    refine ⟨?_, ?_, ?_, ?_⟩
    · intro hs; rw [finalEval, if_pos hif, hs]
    · intro msg hs; rw [finalEval, if_pos hif, hs]
    · intro paths hs hne
      rw [finalEval, if_pos hif, hs]
      simp [List.isEmpty_iff, hne]
    · intro hs; rw [finalEval, if_pos hif, hs]; rfl

/-- Witness for `final_phase_policy`: the unreachable branch and the
raised-failure branch of the final policy at concrete inputs. -/
theorem final_phase_policy_witness :
    finalEval (fun _ _ _ _ => SolverRes.noSolution) [[false, true]] [(0, 0)] false
        [((0 : ℤ), (1 : ℤ))] = (UNREACHABLE_COST, "INF-UNREACHABLE", 0)
    ∧ finalEval (fun _ _ _ _ => SolverRes.failed boomMsg) [[false, false]] [(0, 0)]
        false [((0 : ℤ), (1 : ℤ))] = (UNREACHABLE_COST, "ERROR", 1) :=
  ⟨(final_phase_policy (fun _ _ _ _ => SolverRes.noSolution) [[false, true]]
      [(0, 0)] [] false (fun _ => []) 0 0).2.1 _ (by decide),
   ((final_phase_policy (fun _ _ _ _ => SolverRes.failed boomMsg) [[false, false]]
      [(0, 0)] [] false (fun _ => []) 0 0).2.2 _ (by decide)).2.1 boomMsg rfl⟩

/-! ### The search state (claim C7) -/

theorem matEntry_initCov (dim a b : ℕ) :
    matEntry (initCov dim) a b
      = if a = b ∧ a < dim then (1 : ℚ) / 100 else 0 := by
  rw [matEntry, initCov, getD_map_range]
  by_cases ha : a < dim
  · rw [if_pos ha, getD_map_range]
    by_cases hb : b < dim
    · rw [if_pos hb]
      by_cases hab : a = b
      · rw [if_pos hab, if_pos ⟨hab, ha⟩]
      · rw [if_neg hab,
          if_neg (show ¬(a = b ∧ a < dim) from fun h => hab h.1)]
    · rw [if_neg hb,
        if_neg (show ¬(a = b ∧ a < dim) from fun h => hb (h.1 ▸ ha))]
  · rw [if_neg ha, if_neg (show ¬(a = b ∧ a < dim) from fun h => ha h.2)]
    simp

theorem npMean0_entry (xs : List (List ℚ)) (j : ℕ)
    (hj : j < (xs.headD []).length) :
    (npMean0 xs).getD j 0
      = (xs.map (fun r => r.getD j 0)).sum / (xs.length : ℚ) := by
  simp only [npMean0]
  rw [getD_map_range, if_pos hj]

theorem npCov_entry (xs : List (List ℚ)) (a b : ℕ)
    (ha : a < (xs.headD []).length) (hb : b < (xs.headD []).length) :
    matEntry (npCov xs) a b
      = (xs.map (fun r => (r.getD a 0 - (npMean0 xs).getD a 0)
          * (r.getD b 0 - (npMean0 xs).getD b 0))).sum
        / ((xs.length : ℚ) - 1) := by
  simp only [npCov, matEntry]
  rw [getD_map_range, if_pos ha, getD_map_range, if_pos hb]

theorem npCov_symm (xs : List (List ℚ)) (a b : ℕ) :
    matEntry (npCov xs) a b = matEntry (npCov xs) b a := by
  simp only [npCov, matEntry]
  rw [getD_map_range, getD_map_range]
  by_cases ha : a < (xs.headD []).length <;>
    by_cases hb : b < (xs.headD []).length
  · rw [if_pos ha, if_pos hb, getD_map_range, if_pos hb, getD_map_range, if_pos ha]
    congr 1
    exact congrArg List.sum (List.map_congr_left (fun r _ => by ring))
  · rw [if_pos ha, if_neg hb, getD_map_range, if_neg hb]
    simp
  · rw [if_neg ha, if_pos hb, getD_map_range, if_neg ha]
    simp
  · rw [if_neg ha, if_neg hb]
    simp

/-- C7: the search state starts at mean `0 ∈ R^N` and covariance
`0.01·Identity(N)`; each generation refits the mean to the componentwise
mean of the elite vectors and the covariance to the unbiased (`k - 1`
normalised) sample covariance of the elite vectors, and the covariance
matrix is symmetric after every refit. -/
theorem search_state_refit (solver : Solver) (my_map : List (List Bool))
    (starts goals : List Coord) (disjoint : Bool) (num_elite : ℕ)
    (lamda : List (List ℚ)) (s : CemState) :
    (∀ dim, (initState dim).mean = List.replicate dim 0)
    ∧ (∀ dim a b, matEntry (initState dim).cov a b
        = if a = b ∧ a < dim then (1 : ℚ) / 100 else 0)
    ∧ (cemGen solver my_map starts goals disjoint num_elite lamda s).mean
        = npMean0 (eliteRows lamda
            (eliteIdxs (genCosts solver my_map starts disjoint goals lamda) num_elite))
    ∧ (cemGen solver my_map starts goals disjoint num_elite lamda s).cov
        = npCov (eliteRows lamda
            (eliteIdxs (genCosts solver my_map starts disjoint goals lamda) num_elite))
    ∧ (∀ xs : List (List ℚ), ∀ j, j < (xs.headD []).length →
        (npMean0 xs).getD j 0
          = (xs.map (fun r => r.getD j 0)).sum / (xs.length : ℚ))
    ∧ (∀ xs : List (List ℚ), ∀ a b, a < (xs.headD []).length →
        b < (xs.headD []).length →
        matEntry (npCov xs) a b
          = (xs.map (fun r => (r.getD a 0 - (npMean0 xs).getD a 0)
              * (r.getD b 0 - (npMean0 xs).getD b 0))).sum
            / ((xs.length : ℚ) - 1))
    ∧ (∀ a b, matEntry
          (cemGen solver my_map starts goals disjoint num_elite lamda s).cov a b
        = matEntry
          (cemGen solver my_map starts goals disjoint num_elite lamda s).cov b a) :=
  ⟨fun _ => rfl, matEntry_initCov, rfl, rfl,
   npMean0_entry, npCov_entry, fun a b => npCov_symm _ a b⟩

/-- Witness for `search_state_refit`: the mean and covariance formulas
evaluated at the two observations `[1, 2]`, `[3, 4]`, and an initial
covariance entry. -/
theorem search_state_refit_witness :
    matEntry (initState 2).cov 0 0 = (1 : ℚ) / 100
    ∧ (npMean0 [[1, 2], [3, 4]]).getD 0 0
        = (([[1, 2], [3, 4]] : List (List ℚ)).map (fun r => r.getD 0 0)).sum
          / (([[1, 2], [3, 4]] : List (List ℚ)).length : ℚ)
    ∧ matEntry ((cemGen (fun _ _ _ _ => SolverRes.noSolution) [[false]] [] []
          false 1 [[1, 2], [3, 4]] (initState 2)).cov) 0 1
        = matEntry ((cemGen (fun _ _ _ _ => SolverRes.noSolution) [[false]] [] []
          false 1 [[1, 2], [3, 4]] (initState 2)).cov) 1 0 := by
  refine ⟨?_, ?_, ?_⟩
  · have h := (search_state_refit (fun _ _ _ _ => SolverRes.noSolution) [] [] []
      false 0 [] (initState 0)).2.1 2 0 0
    rw [h]
    norm_num
  · exact (search_state_refit (fun _ _ _ _ => SolverRes.noSolution) [] [] []
      false 0 [] (initState 0)).2.2.2.2.1 [[1, 2], [3, 4]] 0 (by norm_num)
  · exact (search_state_refit (fun _ _ _ _ => SolverRes.noSolution) [[false]] [] []
      false 1 [[1, 2], [3, 4]] (initState 2)).2.2.2.2.2.2 0 1

/-! ### The cost trace (claim C9) -/

theorem pymin_le (l : List (WithTop ℚ)) : ∀ c ∈ l, pymin l ≤ c := by
  induction l with
  | nil => intro c hc; cases hc
  | cons a t ih =>
      intro c hc
      rcases List.mem_cons.mp hc with rfl | hc
      · exact min_le_left _ _
      · exact le_trans (min_le_right _ _) (ih c hc)

theorem pymin_mem (l : List (WithTop ℚ)) (h : l ≠ []) : pymin l ∈ l := by
  induction l with
  | nil => exact absurd rfl h
  | cons a t ih =>
      by_cases ht : t = []
      · subst ht
        have : pymin [a] = a := min_eq_left le_top
        rw [this]
        exact List.mem_singleton_self a
      · rcases min_choice a (pymin t) with hm | hm
        · rw [show pymin (a :: t) = min a (pymin t) from rfl, hm]
          exact List.mem_cons_self a t
        · rw [show pymin (a :: t) = min a (pymin t) from rfl, hm]
          exact List.mem_cons_of_mem a (ih ht)

/-- The cost trace a run of the loop produces: one entry per generation,
each the `min` of the cost list of that generation (which depends only on
the vectors sampled in that generation). -/
theorem cemLoop_cost_track (solver : Solver) (my_map : List (List Bool))
    (starts goals : List Coord) (disjoint : Bool) (num_elite : ℕ)
    (sampler : ℕ → List (List ℚ)) :
    ∀ m g s, (cemLoop solver my_map starts goals disjoint num_elite sampler m g s).cost_track
      = s.cost_track ++ (List.range' g m).map
          (fun i => pymin (genCosts solver my_map starts disjoint goals (sampler i))) := by
  intro m
  induction m with
  | zero => intro g s; simp [cemLoop]
  | succ m ih =>
      intro g s
      simp only [cemLoop]
      rw [ih, List.range'_succ g m 1]
      simp [cemGen]

theorem genCosts_length (solver : Solver) (my_map : List (List Bool))
    (starts : List Coord) (disjoint : Bool) (goals : List Coord)
    (lamda : List (List ℚ)) :
    (genCosts solver my_map starts disjoint goals lamda).length = lamda.length := by
  simp [genCosts, compute_goal_matrix_list]

/-- C9: the cost trace has exactly `maxiter` entries; the `g`-th entry is
the minimum of the generation-`g` cost list (it is a member and a lower
bound); and the trace is not required to be non-increasing across
generations — a run whose trace strictly increases exists. -/
theorem cost_trace_per_generation (solver : Solver) (my_map : List (List Bool))
    (starts goals : List Coord) (disjoint : Bool) (sampler : ℕ → List (List ℚ))
    (num_elite maxiter : ℕ) :
    (cem_plan solver my_map starts goals disjoint sampler num_elite maxiter).cost_track.length
        = maxiter
    ∧ (∀ g, g < maxiter →
        (cem_plan solver my_map starts goals disjoint sampler num_elite
            maxiter).cost_track.getD g ⊤
          = pymin (genCosts solver my_map starts disjoint goals (sampler g)))
    ∧ (∀ g, g < maxiter → sampler g ≠ [] →
        (cem_plan solver my_map starts goals disjoint sampler num_elite
            maxiter).cost_track.getD g ⊤
          ∈ genCosts solver my_map starts disjoint goals (sampler g)
        ∧ ∀ c ∈ genCosts solver my_map starts disjoint goals (sampler g),
          (cem_plan solver my_map starts goals disjoint sampler num_elite
              maxiter).cost_track.getD g ⊤ ≤ c)
    ∧ ¬ (∀ (solver2 : Solver) (my2 : List (List Bool)) (starts2 goals2 : List Coord)
          (sampler2 : ℕ → List (List ℚ)) (ne2 mi2 : ℕ),
          List.Sorted (fun a b => b ≤ a)
            (cem_plan solver2 my2 starts2 goals2 false sampler2 ne2 mi2).cost_track) := by
  have htrack : (cem_plan solver my_map starts goals disjoint sampler num_elite
      maxiter).cost_track
      = (List.range maxiter).map
          (fun i => pymin (genCosts solver my_map starts disjoint goals (sampler i))) := by
    have h := cemLoop_cost_track solver my_map starts goals disjoint num_elite
      sampler maxiter 0 (initState goals.length)
    rw [← List.range_eq_range' maxiter] at h
    simpa [cem_plan, initState] using h
  have hget : ∀ g, g < maxiter →
      (cem_plan solver my_map starts goals disjoint sampler num_elite
          maxiter).cost_track.getD g ⊤
        = pymin (genCosts solver my_map starts disjoint goals (sampler g)) := by
    intro g hg
    rw [htrack, getD_map_range, if_pos hg]
  refine ⟨?_, hget, ?_, ?_⟩
  · rw [htrack]
    simp
  · intro g hg hne
    have hlen : genCosts solver my_map starts disjoint goals (sampler g) ≠ [] := by
      intro h0
      apply hne
      have := genCosts_length solver my_map starts disjoint goals (sampler g)
      rw [h0] at this
      exact List.length_eq_zero.mp this.symm
    rw [hget g hg]
    exact ⟨pymin_mem _ hlen, pymin_le _⟩
  · intro hmono
    have h2 := hmono
      (fun _ _ perm _ => if perm = [((0 : ℤ), (0 : ℤ)), ((0 : ℤ), (1 : ℤ))]
        then SolverRes.solved [[(0, 0)]] else SolverRes.solved [[(0, 0)], [(0, 0)]])
      [[false, false]] [(0, 0), (0, 0)] [(0, 0), (0, 1)]
      (fun g => if g = 0 then [[0, 1]] else [[1, 0]]) 10 2
    revert h2
    decide

/-- Witness for `cost_trace_per_generation` at the concrete two-generation
run used inside it: length 2, and the generation-0 entry is the minimum of
the (singleton) cost list of that generation. -/
theorem cost_trace_witness :
    (cem_plan
        (fun _ _ perm _ => if perm = [((0 : ℤ), (0 : ℤ)), ((0 : ℤ), (1 : ℤ))]
          then SolverRes.solved [[(0, 0)]] else SolverRes.solved [[(0, 0)], [(0, 0)]])
        [[false, false]] [(0, 0), (0, 0)] [(0, 0), (0, 1)] false
        (fun g => if g = 0 then [[0, 1]] else [[1, 0]]) 10 2).cost_track.length = 2
    ∧ (cem_plan
        (fun _ _ perm _ => if perm = [((0 : ℤ), (0 : ℤ)), ((0 : ℤ), (1 : ℤ))]
          then SolverRes.solved [[(0, 0)]] else SolverRes.solved [[(0, 0)], [(0, 0)]])
        [[false, false]] [(0, 0), (0, 0)] [(0, 0), (0, 1)] false
        (fun g => if g = 0 then [[0, 1]] else [[1, 0]]) 10 2).cost_track.getD 0 ⊤
      ∈ genCosts
        (fun _ _ perm _ => if perm = [((0 : ℤ), (0 : ℤ)), ((0 : ℤ), (1 : ℤ))]
          then SolverRes.solved [[(0, 0)]] else SolverRes.solved [[(0, 0)], [(0, 0)]])
        [[false, false]] [(0, 0), (0, 0)] false [(0, 0), (0, 1)] [[0, 1]] :=
  ⟨(cost_trace_per_generation _ _ _ _ _ _ _ _).1,
   ((cost_trace_per_generation
      (fun _ _ perm _ => if perm = [((0 : ℤ), (0 : ℤ)), ((0 : ℤ), (1 : ℤ))]
        then SolverRes.solved [[(0, 0)]] else SolverRes.solved [[(0, 0)], [(0, 0)]])
      [[false, false]] [(0, 0), (0, 0)] [(0, 0), (0, 1)] false
      (fun g => if g = 0 then [[0, 1]] else [[1, 0]]) 10 2).2.2.1 0 (by decide)
      (by decide)).1⟩

/-! ### Scenario A (claim C4) -/

/-- The Scenario-A mock solver: always returns a single path of length 4. -/
def solverA : Solver := fun _ _ _ _ =>
  SolverRes.solved [[(0, 0), (1, 0), (2, 0), (2, 1)]]

/-- The empty 3×3 grid. -/
def grid3 : List (List Bool) := List.replicate 3 (List.replicate 3 false)

/-- The object `np.cov(xs, rowvar=False)` actually hands back: the trailing
`c.squeeze()` turns a 1×1 covariance matrix into a 0-d array (a bare
scalar); otherwise the result is the 2-d matrix. -/
inductive NpCov where
  | scalar (x : ℚ)
  | mat (m : List (List ℚ))
deriving DecidableEq

/-- Shape-faithful model of `np.cov(xs, rowvar=False)` with the default
`ddof = 1`.  NumPy transposes only when the input has more than one row
(`if not rowvar and X.shape[0] != 1: X = X.T`), so a single observation row
is treated as one variable with `d` observations; in both the one-row and
the one-column case the 1×1 result is squeezed to a 0-d scalar.  (With one
observation NumPy divides by zero and emits `nan` with a warning; the
scalar value is irrelevant here — only its 0-d shape matters.) -/
def npCovPy (xs : List (List ℚ)) : NpCov :=
  let k := xs.length
  let d := (xs.headD []).length
  if k = 1 then
    NpCov.scalar
      ((((xs.headD []).map
          (fun x => (x - (xs.headD []).sum / (d : ℚ)) ^ 2)).sum) / ((d : ℚ) - 1))
  else if d = 1 then
    NpCov.scalar (matEntry (npCov xs) 0 0)
  else
    NpCov.mat (npCov xs)

/-- The validation `np.random.multivariate_normal` performs on its
covariance argument before sampling: it must be 2-dimensional and square,
of the same length as the (1-d) mean — a 0-d squeezed covariance raises
`ValueError`. -/
def covLegal (mean : List ℚ) : NpCov → Bool
  | NpCov.scalar _ => false
  | NpCov.mat m => decide ((m.headD []).length = m.length ∧ m.length = mean.length)

/-- The loop state of `cem_plan` with the covariance stored as the object
`np.cov` returns. -/
structure CemStateP where
  mean : List ℚ
  cov : NpCov
  cost_track : List (WithTop ℚ)
deriving DecidableEq

/-- One iteration of the CEM loop (source lines 79-88) with the
shape-faithful covariance refit. -/
def cemGenP (solver : Solver) (my_map : List (List Bool)) (starts : List Coord)
    (goals : List Coord) (disjoint : Bool) (num_elite : ℕ)
    (lamda : List (List ℚ)) (s : CemStateP) : CemStateP :=
  let costs := genCosts solver my_map starts disjoint goals lamda
  let idxs := eliteIdxs costs num_elite
  let elite := eliteRows lamda idxs
  { mean := npMean0 elite
    cov := npCovPy elite
    cost_track := s.cost_track ++ [pymin costs] }

/-- The `for _ in range(maxiter)` loop with the validation that opens every
iteration: line 80 calls `np.random.multivariate_normal(mean, cov, ...)`
before anything else, and that call rejects a covariance that is not a 2-d
square matrix of the same length as the mean; `none` is the uncaught
`ValueError` propagating out of `cem_plan`. -/
def cemLoopP (solver : Solver) (my_map : List (List Bool)) (starts : List Coord)
    (goals : List Coord) (disjoint : Bool) (num_elite : ℕ)
    (sampler : ℕ → List (List ℚ)) : ℕ → ℕ → CemStateP → Option CemStateP
  | 0, _, s => some s
  | m + 1, g, s =>
      if covLegal s.mean s.cov then
        cemLoopP solver my_map starts goals disjoint num_elite sampler m (g + 1)
          (cemGenP solver my_map starts goals disjoint num_elite (sampler g) s)
      else none

/-- The initial shape-faithful state: `np.identity(dim)` is always a 2-d
`dim×dim` array, even for `dim = 1`. -/
def initStateP (dim : ℕ) : CemStateP :=
  { mean := List.replicate dim 0
    cov := NpCov.mat (initCov dim)
    cost_track := [] }

/-- A run of `cem_plan` (source lines 73-134) through the shape-faithful
loop: `none` when some generation raises in `multivariate_normal`,
otherwise the reported result, built exactly as in `cem_plan`. -/
def cem_plan_run (solver : Solver) (my_map : List (List Bool))
    (starts goals : List Coord) (disjoint : Bool)
    (sampler : ℕ → List (List ℚ)) (num_elite maxiter : ℕ) : Option CemResult :=
  (cemLoopP solver my_map starts goals disjoint num_elite sampler maxiter 0
      (initStateP goals.length)).map (fun sf =>
    let idx_sort := argsort 0 (sf.mean.map (fun x => |x|))
    let permuted := idx_sort.map (fun idx => goals.getD idx (0, 0))
    let fe := finalEval solver my_map starts disjoint permuted
    { permuted := permuted
      best_cost := fe.1
      note := fe.2.1
      cost_track := sf.cost_track
      finalSolverCalls := fe.2.2 })

/-- C4: contrary to the claim, `cem_plan` does not complete for every value
of `maxiter` on the 1-agent Scenario-A instance (empty 3×3 grid, start
`(0,0)`, goal `(2,2)`, solver mocked to a path of length 4).  After the
first refit `np.cov` squeezes the 1×1 elite covariance to a 0-d array, so
the `np.random.multivariate_normal` call that opens generation 2 raises
`ValueError` and the run aborts (`none`) for every `maxiter ≥ 2`; only for
`maxiter ≤ 1` does the run complete, and then it does report final cost 4
with an empty note. -/
theorem scenarioA_crash_maxiter_two :
    cem_plan_run solverA grid3 [(0, 0)] [(2, 2)] false (fun _ => [[0]]) 10 2 = none
    ∧ (cem_plan_run solverA grid3 [(0, 0)] [(2, 2)] false (fun _ => [[0]]) 10 1).map
        (fun r => (r.best_cost, r.note)) = some ((4 : ℚ), "")
    ∧ (cem_plan_run solverA grid3 [(0, 0)] [(2, 2)] false (fun _ => [[0]]) 10 0).map
        (fun r => (r.best_cost, r.note)) = some ((4 : ℚ), "") := by
  refine ⟨?_, ?_, ?_⟩ <;> decide

/-! ### Breadth-first-search correctness (claims C8, C10) -/

/-- One step of the walk the BFS explores: `b` is a 4-neighbour of `a` that
is in bounds and free.  Note the asymmetry of the source: the cell `a` the
step leaves is not required to be free — the start cell is never checked. -/
def stepRel (rows cols : ℕ) (cell : Coord → Bool) (a b : Coord) : Prop :=
  (∃ d ∈ directions, b = nbr a d) ∧ inBounds rows cols b = true ∧ cell b = false

/-- The finite set of in-bounds coordinates. -/
def allowedF (rows cols : ℕ) : Finset Coord :=
  Finset.Icc (0 : ℤ) ((rows : ℤ) - 1) ×ˢ Finset.Icc (0 : ℤ) ((cols : ℤ) - 1)

/-- The termination measure of the BFS loop: queue length plus the number of
in-bounds cells not yet visited.  Each loop iteration decreases it by one. -/
def bfsMeasure (rows cols : ℕ) (q : List Coord) (v : Finset Coord) : ℕ :=
  q.length + (allowedF rows cols \ v).card

theorem mem_allowedF {rows cols : ℕ} {p : Coord} :
    p ∈ allowedF rows cols ↔ inBounds rows cols p = true := by
  rw [allowedF, Finset.mem_product, Finset.mem_Icc, Finset.mem_Icc, inBounds,
    decide_eq_true_iff]
  omega

theorem card_allowedF (rows cols : ℕ) :
    (allowedF rows cols).card = rows * cols := by
  rw [allowedF, Finset.card_product, Int.card_Icc, Int.card_Icc]
  congr 1 <;> omega

theorem sdiff_card_after (A v : Finset Coord) (new : List Coord)
    (hnd : new.Nodup) (hsub : ∀ x ∈ new, x ∈ A ∧ x ∉ v) :
    (A \ (v ∪ new.toFinset)).card + new.length = (A \ v).card := by
  have hsubF : new.toFinset ⊆ A \ v := by
    intro x hx
    rw [List.mem_toFinset] at hx
    exact Finset.mem_sdiff.mpr (hsub x hx)
  have h1 : A \ (v ∪ new.toFinset) = (A \ v) \ new.toFinset := by
    ext x
    simp only [Finset.mem_sdiff, Finset.mem_union]
    tauto
  rw [h1, Finset.card_sdiff hsubF, List.toFinset_card_of_nodup hnd]
  exact Nat.sub_add_cancel
    ((List.toFinset_card_of_nodup hnd) ▸ Finset.card_le_card hsubF)

/-- What one pass of the neighbour loop does when it does not find the goal:
it appends some block `new` of fresh, in-bounds, free, non-goal neighbours
of `c` to the pending list, inserts exactly those into the visited set, and
afterwards every admissible neighbour of `c` is visited. -/
theorem foldCheck_some (rows cols : ℕ) (cell : Coord → Bool) (goal c : Coord) :
    ∀ (ds : List Coord) (v : Finset Coord) (acc : List Coord)
      (v2 : Finset Coord) (acc2 : List Coord),
      List.foldlM (checkNbr rows cols cell goal c) (v, acc) ds = some (v2, acc2) →
      ∃ new : List Coord,
        acc2 = acc ++ new
        ∧ v2 = v ∪ new.toFinset
        ∧ new.Nodup
        ∧ (∀ x ∈ new, x ∉ v)
        ∧ (∀ x ∈ new, (∃ d ∈ ds, x = nbr c d) ∧ inBounds rows cols x = true
            ∧ cell x = false ∧ x ≠ goal)
        ∧ (∀ d ∈ ds, inBounds rows cols (nbr c d) = true →
            cell (nbr c d) = false → nbr c d ∈ v2) := by
  intro ds
  induction ds with
  | nil =>
      intro v acc v2 acc2 h
      rw [List.foldlM_nil] at h
      obtain ⟨rfl, rfl⟩ : v = v2 ∧ acc = acc2 := by
        have := Option.some.inj h
        exact ⟨congrArg Prod.fst this, congrArg Prod.snd this⟩
      refine ⟨[], by simp, by simp, List.nodup_nil, ?_, ?_, ?_⟩
      · intro x hx; cases hx
      · intro x hx; cases hx
      · intro d hd; cases hd
  | cons d ds ih =>
      intro v acc v2 acc2 h
      rw [List.foldlM_cons] at h
      by_cases hg : inBounds rows cols (nbr c d) = true
          ∧ cell (nbr c d) = false ∧ nbr c d ∉ v
      · by_cases hgoal : nbr c d = goal
        · exfalso
          simp only [checkNbr, if_pos hg, if_pos hgoal] at h
          cases h
        · simp only [checkNbr, if_pos hg, if_neg hgoal, Option.some_bind] at h
          obtain ⟨new, hacc, hv, hnd, hfresh, hprops, hcover⟩ :=
            ih (insert (nbr c d) v) (acc ++ [nbr c d]) v2 acc2 h
          refine ⟨nbr c d :: new, ?_, ?_, ?_, ?_, ?_, ?_⟩
          · rw [hacc, List.append_assoc]
            rfl
          · rw [hv]
            ext x
            simp only [Finset.mem_union, Finset.mem_insert, List.toFinset_cons,
              List.mem_toFinset]
            tauto
          · exact List.nodup_cons.mpr
              ⟨fun hx => hfresh _ hx (Finset.mem_insert_self _ _), hnd⟩
          · intro x hx
            rcases List.mem_cons.mp hx with rfl | hx
            · exact hg.2.2
            · exact fun hxv => hfresh x hx (Finset.mem_insert_of_mem hxv)
          · intro x hx
            rcases List.mem_cons.mp hx with rfl | hx
            · exact ⟨⟨d, List.mem_cons_self d ds, rfl⟩, hg.1, hg.2.1, hgoal⟩
            · obtain ⟨⟨d1, hd1, hx1⟩, h2, h3, h4⟩ := hprops x hx
              exact ⟨⟨d1, List.mem_cons_of_mem d hd1, hx1⟩, h2, h3, h4⟩
          · intro d1 hd1 hb hc2
            rcases List.mem_cons.mp hd1 with rfl | hd1
            · rw [hv]
              exact Finset.mem_union_left _ (Finset.mem_insert_self _ _)
            · exact hcover d1 hd1 hb hc2
      · simp only [checkNbr, if_neg hg, Option.some_bind] at h
        obtain ⟨new, hacc, hv, hnd, hfresh, hprops, hcover⟩ :=
          ih v acc v2 acc2 h
        refine ⟨new, hacc, hv, hnd, hfresh, ?_, ?_⟩
        · intro x hx
          obtain ⟨⟨d1, hd1, hx1⟩, h2, h3, h4⟩ := hprops x hx
          exact ⟨⟨d1, List.mem_cons_of_mem d hd1, hx1⟩, h2, h3, h4⟩
        · intro d1 hd1 hb hc2
          rcases List.mem_cons.mp hd1 with rfl | hd1
          · have hin : nbr c d1 ∈ v := by
              by_contra hnv
              exact hg ⟨hb, hc2, hnv⟩
            rw [hv]
            exact Finset.mem_union_left _ hin
          · exact hcover d1 hd1 hb hc2

/-- What one pass of the neighbour loop means when it finds the goal: the
goal is an in-bounds, free neighbour of the dequeued cell. -/
theorem foldCheck_none (rows cols : ℕ) (cell : Coord → Bool) (goal c : Coord) :
    ∀ (ds : List Coord) (v : Finset Coord) (acc : List Coord),
      List.foldlM (checkNbr rows cols cell goal c) (v, acc) ds = none →
      inBounds rows cols goal = true ∧ cell goal = false
        ∧ ∃ d ∈ ds, nbr c d = goal := by
  intro ds
  induction ds with
  | nil =>
      intro v acc h
      rw [List.foldlM_nil] at h
      cases h
  | cons d ds ih =>
      intro v acc h
      rw [List.foldlM_cons] at h
      by_cases hg : inBounds rows cols (nbr c d) = true
          ∧ cell (nbr c d) = false ∧ nbr c d ∉ v
      · by_cases hgoal : nbr c d = goal
        · exact ⟨hgoal ▸ hg.1, hgoal ▸ hg.2.1, d, List.mem_cons_self d ds, hgoal⟩
        · simp only [checkNbr, if_pos hg, if_neg hgoal, Option.some_bind] at h
          obtain ⟨h1, h2, d1, hd1, h3⟩ := ih _ _ h
          exact ⟨h1, h2, d1, List.mem_cons_of_mem d hd1, h3⟩
      · simp only [checkNbr, if_neg hg, Option.some_bind] at h
        obtain ⟨h1, h2, d1, hd1, h3⟩ := ih _ _ h
        exact ⟨h1, h2, d1, List.mem_cons_of_mem d hd1, h3⟩

/-- The measure drops by exactly one across one loop iteration. -/
theorem bfsMeasure_step (rows cols : ℕ) (cell : Coord → Bool) (goal c : Coord)
    (q : List Coord) (v v2 : Finset Coord) (new : List Coord)
    (hfold : List.foldlM (checkNbr rows cols cell goal c) (v, ([] : List Coord))
      directions = some (v2, new)) :
    bfsMeasure rows cols (q ++ new) v2 + 1 = bfsMeasure rows cols (c :: q) v := by
  obtain ⟨new2, hacc, hv, hnd, hfresh, hprops, _⟩ :=
    foldCheck_some rows cols cell goal c directions v [] v2 new hfold
  have hnew : new = new2 := by simpa using hacc
  subst hnew
  have hcard : (allowedF rows cols \ v2).card + new.length
      = (allowedF rows cols \ v).card := by
    rw [hv]
    refine sdiff_card_after _ _ _ hnd ?_
    intro x hx
    exact ⟨mem_allowedF.mpr (hprops x hx).2.1, hfresh x hx⟩
  simp only [bfsMeasure, List.length_append, List.length_cons]
  omega

/-- Any two sufficiently large fuels give the same BFS verdict: the search
terminates (its result stabilises) once the frontier is exhausted. -/
theorem bfsAux_fuel_stable (rows cols : ℕ) (cell : Coord → Bool) (goal : Coord) :
    ∀ f1 f2 (q : List Coord) (v : Finset Coord),
      bfsMeasure rows cols q v + 1 ≤ f1 → f1 ≤ f2 →
      bfsAux rows cols cell goal f1 q v = bfsAux rows cols cell goal f2 q v := by
  intro f1
  induction f1 with
  | zero => intro f2 q v h1 _; exact absurd h1 (Nat.not_succ_le_zero _)
  | succ f1 ih =>
      intro f2 q v h1 h2
      obtain ⟨f3, rfl⟩ : ∃ f3, f2 = f3 + 1 :=
        ⟨f2 - 1, by omega⟩
      match q with
      | [] => rfl
      | c :: q =>
          simp only [bfsAux]
          cases hfold : List.foldlM (checkNbr rows cols cell goal c)
              (v, ([] : List Coord)) directions with
          | none => rfl
          | some st =>
              obtain ⟨v2, new⟩ := st
              have hm := bfsMeasure_step rows cols cell goal c q v v2 new hfold
              refine ih f3 (q ++ new) v2 ?_ ?_
              · have : bfsMeasure rows cols (c :: q) v + 1 ≤ f1 + 1 := h1
                omega
              · omega

/-- If the BFS answers `true`, the goal is an in-bounds free cell (the
goal-equality test sits behind the free-cell guard). -/
theorem bfsAux_true_goal_free (rows cols : ℕ) (cell : Coord → Bool) (goal : Coord) :
    ∀ f (q : List Coord) (v : Finset Coord),
      bfsAux rows cols cell goal f q v = true →
      inBounds rows cols goal = true ∧ cell goal = false := by
  intro f
  induction f with
  | zero => intro q v h; cases h
  | succ f ih =>
      intro q v h
      match q with
      | [] => cases h
      | c :: q =>
          simp only [bfsAux] at h
          cases hfold : List.foldlM (checkNbr rows cols cell goal c)
              (v, ([] : List Coord)) directions with
          | none =>
              obtain ⟨h1, h2, _⟩ := foldCheck_none rows cols cell goal c _ _ _ hfold
              exact ⟨h1, h2⟩
          | some st =>
              obtain ⟨v2, new⟩ := st
              rw [hfold] at h
              exact ih (q ++ new) v2 h

/-- Soundness: if the BFS answers `true` from a queue of cells reachable
from `s`, then there is a genuine walk from `s` to the goal over in-bounds
free cells. -/
theorem bfsAux_true_sound (rows cols : ℕ) (cell : Coord → Bool)
    (s goal : Coord) :
    ∀ f (q : List Coord) (v : Finset Coord),
      (∀ x ∈ q, Relation.ReflTransGen (stepRel rows cols cell) s x) →
      bfsAux rows cols cell goal f q v = true →
      Relation.TransGen (stepRel rows cols cell) s goal := by
  intro f
  induction f with
  | zero => intro q v _ h; cases h
  | succ f ih =>
      intro q v hq h
      match q with
      | [] => cases h
      | c :: q =>
          simp only [bfsAux] at h
          cases hfold : List.foldlM (checkNbr rows cols cell goal c)
              (v, ([] : List Coord)) directions with
          | none =>
              obtain ⟨h1, h2, d, hd, hnd⟩ :=
                foldCheck_none rows cols cell goal c _ _ _ hfold
              exact Relation.TransGen.tail' (hq c (List.mem_cons_self c q))
                ⟨⟨d, hd, hnd.symm⟩, h1, h2⟩
          | some st =>
              obtain ⟨v2, new⟩ := st
              rw [hfold] at h
              obtain ⟨new2, hacc, _, _, _, hprops, _⟩ :=
                foldCheck_some rows cols cell goal c directions v [] v2 new hfold
              have hnew : new = new2 := by simpa using hacc
              subst hnew
              refine ih (q ++ new) v2 ?_ h
              intro x hx
              rcases List.mem_append.mp hx with hx | hx
              · exact hq x (List.mem_cons_of_mem c hx)
              · obtain ⟨⟨d, hd, hx1⟩, h2, h3, _⟩ := hprops x hx
                exact Relation.ReflTransGen.tail
                  (hq c (List.mem_cons_self c q)) ⟨⟨d, hd, hx1⟩, h2, h3⟩

/-- Completeness scaffold: if the BFS (with sufficient fuel) answers
`false`, the visited set extends to a set containing everything visited,
avoiding the goal, and closed under admissible steps. -/
theorem bfsAux_false_closed (rows cols : ℕ) (cell : Coord → Bool) (goal : Coord) :
    ∀ f (q : List Coord) (v : Finset Coord),
      (∀ x ∈ q, x ∈ v) → goal ∉ v →
      (∀ a ∈ v, a ∉ q → ∀ b, stepRel rows cols cell a b → b ∈ v) →
      bfsMeasure rows cols q v + 1 ≤ f →
      bfsAux rows cols cell goal f q v = false →
      ∃ w : Finset Coord, v ⊆ w ∧ goal ∉ w
        ∧ ∀ a ∈ w, ∀ b, stepRel rows cols cell a b → b ∈ w := by
  intro f
  induction f with
  | zero => intro q v _ _ _ hm _; exact absurd hm (Nat.not_succ_le_zero _)
  | succ f ih =>
      intro q v hqv hgv hclosed hm hrun
      match q with
      | [] =>
          refine ⟨v, Finset.Subset.refl v, hgv, ?_⟩
          intro a ha b hb
          exact hclosed a ha (List.not_mem_nil a) b hb
      | c :: q =>
          simp only [bfsAux] at hrun
          cases hfold : List.foldlM (checkNbr rows cols cell goal c)
              (v, ([] : List Coord)) directions with
          | none => rw [hfold] at hrun; cases hrun
          | some st =>
              obtain ⟨v2, new⟩ := st
              rw [hfold] at hrun
              obtain ⟨new2, hacc, hv, hnd, hfresh, hprops, hcover⟩ :=
                foldCheck_some rows cols cell goal c directions v [] v2 new hfold
              have hnew : new = new2 := by simpa using hacc
              subst hnew
              have hsub : v ⊆ v2 := by
                rw [hv]; exact Finset.subset_union_left
              have hq2 : ∀ x ∈ q ++ new, x ∈ v2 := by
                intro x hx
                rcases List.mem_append.mp hx with hx | hx
                · exact hsub (hqv x (List.mem_cons_of_mem c hx))
                · rw [hv]
                  exact Finset.mem_union_right _ (List.mem_toFinset.mpr hx)
              have hg2 : goal ∉ v2 := by
                rw [hv]
                intro hmem
                rcases Finset.mem_union.mp hmem with hmem | hmem
                · exact hgv hmem
                · exact (hprops goal (List.mem_toFinset.mp hmem)).2.2.2 rfl
              have hc2 : ∀ a ∈ v2, a ∉ q ++ new →
                  ∀ b, stepRel rows cols cell a b → b ∈ v2 := by
                intro a ha hanotin b hb
                rw [hv] at ha
                rcases Finset.mem_union.mp ha with ha | ha
                · by_cases hac : a = c
                  · subst hac
                    obtain ⟨⟨d, hd, rfl⟩, hb2, hb3⟩ := hb
                    exact hcover d hd hb2 hb3
                  · refine hsub (hclosed a ha ?_ b hb)
                    intro hmem
                    rcases List.mem_cons.mp hmem with rfl | hmem
                    · exact hac rfl
                    · exact hanotin (List.mem_append_left _ hmem)
                · exact absurd (List.mem_append_right _ (List.mem_toFinset.mp ha))
                    hanotin
              have hm2 : bfsMeasure rows cols (q ++ new) v2 + 1 ≤ f := by
                have := bfsMeasure_step rows cols cell goal c q v v2 new hfold
                omega
              obtain ⟨w, hw1, hw2, hw3⟩ := ih (q ++ new) v2 hq2 hg2 hc2 hm2 hrun
              exact ⟨w, Finset.Subset.trans hsub hw1, hw2, hw3⟩

/-- A set closed under a step relation contains everything reachable from
any of its members. -/
theorem closed_mem (step : Coord → Coord → Prop) (w : Finset Coord)
    (hcl : ∀ a ∈ w, ∀ b, step a b → b ∈ w) :
    ∀ x y, Relation.ReflTransGen step x y → x ∈ w → y ∈ w := by
  intro x y h
  induction h with
  | refl => exact fun hx => hx
  | tail _ h2 ih => exact fun hx => hcl _ (ih hx) _ h2

theorem bfsMeasure_init (rows cols : ℕ) (s : Coord) :
    bfsMeasure rows cols [s] {s} + 1 ≤ rows * cols + 2 := by
  have h : (allowedF rows cols \ {s}).card ≤ (allowedF rows cols).card :=
    Finset.card_le_card Finset.sdiff_subset
  rw [card_allowedF] at h
  simp only [bfsMeasure, List.length_singleton]
  omega

/-- C8: `is_reachable(grid, p, p)` is true for every cell; for `start ≠ goal`
it answers true exactly when a walk over 4-connected in-bounds free cells
leads from the start to the goal (so a goal enclosed by obstacles, with no
such walk, yields false); and the search stabilises — every fuel at least
`rows·cols + 2` (more dequeues than the loop can ever perform) returns the
same verdict, i.e. the loop ends once the frontier is exhausted. -/
theorem is_reachable_bfs_spec :
    (∀ (my_map : List (List Bool)) (p : Coord), is_reachable my_map p p = true)
    ∧ (∀ (my_map : List (List Bool)) (s g : Coord), s ≠ g →
        (is_reachable my_map s g = true ↔
          Relation.TransGen
            (stepRel my_map.length (my_map.headD []).length (cellAt my_map)) s g))
    ∧ (∀ (my_map : List (List Bool)) (s g : Coord), s ≠ g →
        ¬ Relation.TransGen
            (stepRel my_map.length (my_map.headD []).length (cellAt my_map)) s g →
        is_reachable my_map s g = false)
    ∧ (∀ (my_map : List (List Bool)) (s g : Coord) (f : ℕ),
        my_map.length * (my_map.headD []).length + 2 ≤ f →
        bfsAux my_map.length (my_map.headD []).length (cellAt my_map) g f [s] {s}
          = bfsAux my_map.length (my_map.headD []).length (cellAt my_map) g
              (my_map.length * (my_map.headD []).length + 2) [s] {s}) := by
  have hiff : ∀ (my_map : List (List Bool)) (s g : Coord), s ≠ g →
      (is_reachable my_map s g = true ↔
        Relation.TransGen
          (stepRel my_map.length (my_map.headD []).length (cellAt my_map)) s g) := by
    intro my_map s g hne
    constructor
    · intro h
      rw [is_reachable, if_neg hne] at h
      refine bfsAux_true_sound _ _ _ s g _ [s] {s} ?_ h
      intro x hx
      rw [List.mem_singleton] at hx
      subst hx
      exact Relation.ReflTransGen.refl
    · intro htg
      by_contra hfalse
      have hb : bfsAux my_map.length (my_map.headD []).length (cellAt my_map) g
          (my_map.length * (my_map.headD []).length + 2) [s] {s} = false := by
        rw [is_reachable, if_neg hne] at hfalse
        exact Bool.eq_false_iff.mpr hfalse
      obtain ⟨w, hw1, hw2, hw3⟩ :=
        bfsAux_false_closed _ _ _ g _ [s] {s}
          (by intro x hx
              rw [List.mem_singleton] at hx
              rw [hx]
              exact Finset.mem_singleton_self s)
          (by intro hmem; exact hne (Finset.mem_singleton.mp hmem).symm)
          (by intro a ha hanotin b _
              exfalso
              apply hanotin
              rw [Finset.mem_singleton.mp ha]
              exact List.mem_singleton_self s)
          (bfsMeasure_init _ _ s) hb
      have hsw : s ∈ w := hw1 (Finset.mem_singleton_self s)
      exact hw2 (closed_mem _ w hw3 s g htg.to_reflTransGen hsw)
  refine ⟨?_, hiff, ?_, ?_⟩
  · intro my_map p
    rw [is_reachable, if_pos rfl]
  · intro my_map s g hne hnt
    cases hb : is_reachable my_map s g with
    | false => rfl
    | true => exact absurd ((hiff my_map s g hne).mp hb) hnt
  · intro my_map s g f hf
    exact bfsAux_fuel_stable _ _ _ g
      (my_map.length * (my_map.headD []).length + 2) f [s] {s}
      (bfsMeasure_init _ _ s) hf |>.symm

/-- Witness for `is_reachable_bfs_spec`: on the free 1×2 grid the BFS
verdict certifies a one-step walk from `(0,0)` to `(0,1)`, and any fuel
of at least `1·2 + 2 = 4` gives the stabilised verdict. -/
theorem is_reachable_bfs_spec_witness :
    Relation.TransGen
      (stepRel (List.length [[false, false]])
        (List.length (List.headD [[false, false]] []))
        (cellAt [[false, false]])) (0, 0) (0, 1)
    ∧ bfsAux 1 2 (cellAt [[false, false]]) (0, 1) 9 [(0, 0)] {(0, 0)}
        = bfsAux 1 2 (cellAt [[false, false]]) (0, 1) 4 [(0, 0)] {(0, 0)} :=
  ⟨(is_reachable_bfs_spec.2.1 [[false, false]] (0, 0) (0, 1) (by decide)).mp
      (by decide),
   is_reachable_bfs_spec.2.2.2 [[false, false]] (0, 0) (0, 1) 9 (by norm_num)⟩

/-- The BFS result does not depend on the cell values outside the in-bounds
region minus the start (they are only read behind guards that already
fail), provided the start is already in the visited set. -/
theorem foldCheck_congr (rows cols : ℕ) (cell1 cell2 : Coord → Bool)
    (goal s c : Coord)
    (hcell : ∀ p : Coord, p ≠ s → inBounds rows cols p = true →
      cell1 p = cell2 p) :
    ∀ (ds : List Coord) (v : Finset Coord) (acc : List Coord), s ∈ v →
      List.foldlM (checkNbr rows cols cell1 goal c) (v, acc) ds
        = List.foldlM (checkNbr rows cols cell2 goal c) (v, acc) ds := by
  intro ds
  induction ds with
  | nil => intro v acc _; rfl
  | cons d ds ih =>
      intro v acc hv
      rw [List.foldlM_cons, List.foldlM_cons]
      by_cases h1 : inBounds rows cols (nbr c d) = true
          ∧ cell1 (nbr c d) = false ∧ nbr c d ∉ v
      · have hns : nbr c d ≠ s := fun he => h1.2.2 (he ▸ hv)
        have h2 : inBounds rows cols (nbr c d) = true
            ∧ cell2 (nbr c d) = false ∧ nbr c d ∉ v :=
          ⟨h1.1, by rw [← hcell _ hns h1.1]; exact h1.2.1, h1.2.2⟩
        by_cases hgoal : nbr c d = goal
        · simp only [checkNbr, if_pos h1, if_pos h2, if_pos hgoal]
          rfl
        · simp only [checkNbr, if_pos h1, if_pos h2, if_neg hgoal,
            Option.some_bind]
          exact ih _ _ (Finset.mem_insert_of_mem hv)
      · have h2 : ¬ (inBounds rows cols (nbr c d) = true
            ∧ cell2 (nbr c d) = false ∧ nbr c d ∉ v) := by
          rintro ⟨hb, hc, hnv⟩
          by_cases hns : nbr c d = s
          · exact hnv (hns ▸ hv)
          · exact h1 ⟨hb, by rw [hcell _ hns hb]; exact hc, hnv⟩
        simp only [checkNbr, if_neg h1, if_neg h2, Option.some_bind]
        exact ih v acc hv

theorem bfsAux_cell_congr (rows cols : ℕ) (cell1 cell2 : Coord → Bool)
    (goal s : Coord)
    (hcell : ∀ p : Coord, p ≠ s → inBounds rows cols p = true →
      cell1 p = cell2 p) :
    ∀ f (q : List Coord) (v : Finset Coord), s ∈ v →
      bfsAux rows cols cell1 goal f q v = bfsAux rows cols cell2 goal f q v := by
  intro f
  induction f with
  | zero => intro q v _; rfl
  | succ f ih =>
      intro q v hv
      match q with
      | [] => rfl
      | c :: q =>
          simp only [bfsAux]
          rw [← foldCheck_congr rows cols cell1 cell2 goal s c hcell
            directions v [] hv]
          cases hfold : List.foldlM (checkNbr rows cols cell1 goal c)
              (v, ([] : List Coord)) directions with
          | none => rfl
          | some st =>
              obtain ⟨v2, new⟩ := st
              have hsv2 : s ∈ v2 := by
                obtain ⟨new2, _, hveq, _, _, _, _⟩ :=
                  foldCheck_some rows cols cell1 goal c directions v [] v2 new hfold
                rw [hveq]
                exact Finset.mem_union_left _ hv
              exact ih (q ++ new) v2 hsv2

/-- C10: with `start ≠ goal` the BFS never answers true onto an obstacle
goal (the goal-equality test sits behind the free-cell guard); the
`start = goal` shortcut answers true even when that cell is an obstacle;
and the verdict never depends on the obstacle status of the start cell —
two grids of the same dimensions that agree on every in-bounds cell other
than the start get the same answer. -/
theorem is_reachable_guard_quirks :
    (∀ (my_map : List (List Bool)) (s g : Coord), s ≠ g →
        cellAt my_map g = true → is_reachable my_map s g = false)
    ∧ (∀ (my_map : List (List Bool)) (p : Coord), cellAt my_map p = true →
        is_reachable my_map p p = true)
    ∧ (∀ (g1 g2 : List (List Bool)) (s goal : Coord),
        g1.length = g2.length →
        (g1.headD []).length = (g2.headD []).length →
        (∀ p : Coord, p ≠ s →
          inBounds g1.length (g1.headD []).length p = true →
          cellAt g1 p = cellAt g2 p) →
        is_reachable g1 s goal = is_reachable g2 s goal) := by
  refine ⟨?_, ?_, ?_⟩
  · intro my_map s g hne hcell
    cases hb : is_reachable my_map s g with
    | false => rfl
    | true =>
        exfalso
        rw [is_reachable, if_neg hne] at hb
        have hfree := (bfsAux_true_goal_free _ _ _ _ _ _ _ hb).2
        rw [hcell] at hfree
        exact Bool.noConfusion hfree
  · intro my_map p _
    rw [is_reachable, if_pos rfl]
  · intro g1 g2 s goal hrows hcols hcell
    by_cases hsg : s = goal
    · rw [is_reachable, is_reachable, if_pos hsg, if_pos hsg]
    · rw [is_reachable, is_reachable, if_neg hsg, if_neg hsg]
      rw [← hrows, ← hcols]
      exact bfsAux_cell_congr g1.length (g1.headD []).length
        (cellAt g1) (cellAt g2) goal s hcell _ [s] {s}
        (Finset.mem_singleton_self s)

/-- Witness for `is_reachable_guard_quirks`: an obstacle goal is never
reached, an obstacle start equal to the goal is reported reachable, and toggling the
(sole, in-bounds) start cell of a 1×1 grid leaves the verdict unchanged. -/
theorem is_reachable_guard_quirks_witness :
    is_reachable [[false, true]] (0, 0) (0, 1) = false
    ∧ is_reachable [[true]] (0, 0) (0, 0) = true
    ∧ is_reachable [[false]] (0, 0) (5, 5) = is_reachable [[true]] (0, 0) (5, 5) := by
  refine ⟨?_, ?_, ?_⟩
  · exact is_reachable_guard_quirks.1 [[false, true]] (0, 0) (0, 1)
      (by decide) (by decide)
  · exact is_reachable_guard_quirks.2.1 [[true]] (0, 0) (by decide)
  · refine is_reachable_guard_quirks.2.2 [[false]] [[true]] (0, 0) (5, 5)
      rfl rfl ?_
    intro p hp hin
    exfalso
    apply hp
    simp only [inBounds, decide_eq_true_iff] at hin
    obtain ⟨h1, h2, h3, h4⟩ := hin
    have hx : p.1 = 0 := by
      simp only [List.length_cons, List.length_nil] at h2
      omega
    have hy : p.2 = 0 := by
      simp only [List.headD_cons, List.length_cons, List.length_nil] at h4
      omega
    exact Prod.ext hx hy

end CemMapf
